import Mathlib

/-! # Word-frequency pipeline of `main.go` (zipf-law)

A shallow embedding of the batch pipeline in `src/main.go`:

* tokenisation with the regular expression `[A-Za-z']+` and aggregation into
  the map `zipfTable` (lines 47-59),
* projection of the map into `sortableWords` and `sort.Slice` (lines 61-66),
* the selection `sortableWords[0:*topx]`, the chart construction of
  `drawGraph` (lines 115-142) and the console loop (lines 83-88).

Conventions of the embedding.

* A Go string is a list of characters (`GoString`).  The regular expression
  only matches ASCII letters and the apostrophe, so every other character is
  a separator: any non-ASCII rune, and likewise the replacement rune the
  engine reads for a byte outside a valid UTF-8 encoding.  The number of
  characters of a string is at most its length in bytes.
* A Go `map[string]int64` is an association list with the lookup, assignment
  and increment of Go; the iteration order of `range` over a map is an
  arbitrary permutation of its entries, taken as a parameter.
* `int64` arithmetic wraps (`wrapInt64`); `float64(int64)` rounds to the
  nearest value with a 53-bit significand (`float64OfInt64`), represented by
  the integer it denotes.
* A run-time panic is a value of `Panic` in `Except`.
-/

set_option maxRecDepth 100000

namespace Zipf

/-! ## Strings, the regular expression and `strings.ToLower` -/

/-- A Go string, as its sequence of characters. -/
abbrev GoString := List Char

/-- The apostrophe character, code point 39. -/
def apostropheChar : Char := Char.ofNat 39

/-- The one-character string holding an apostrophe, the literal compared
against at `main.go:54`. -/
def apostrophe : GoString := [apostropheChar]

/-- Membership in the character class `[A-Za-z']` of `main.go:48`. -/
def isWordChar (c : Char) : Bool :=
  (65 ≤ c.toNat && c.toNat ≤ 90) || (97 ≤ c.toNat && c.toNat ≤ 122) || c.toNat == 39

/-- Scanner behind `findAllString`: `acc` holds the characters of the match
in progress, most recent first.  A character of the class extends the match;
any other character ends it. -/
def findAllAux : GoString → GoString → List GoString
  | [], acc => if acc = [] then [] else [acc.reverse]
  | c :: cs, acc =>
    if isWordChar c then findAllAux cs (c :: acc)
    else if acc = [] then findAllAux cs []
    else acc.reverse :: findAllAux cs []

/-- The call `re.FindAllString(book, -1)` for `re = [A-Za-z']+`
(`main.go:52`): the successive leftmost, greedy, non-overlapping matches. -/
def findAllString (book : GoString) : List GoString :=
  findAllAux book []

/-- The rune mapping of `unicode.ToLower`: on ASCII it adds 32 to the upper
case letters and fixes everything else; beyond ASCII it follows the Unicode
tables, which are the parameter `u`. -/
def toLowerRune (u : Char → Char) (c : Char) : Char :=
  if c.toNat < 128 then
    (if 65 ≤ c.toNat ∧ c.toNat ≤ 90 then Char.ofNat (c.toNat + 32) else c)
  else u c

/-- The call `strings.ToLower(word)` (`main.go:57`). -/
def toLower (u : Char → Char) (s : GoString) : GoString :=
  s.map (toLowerRune u)

/-! ## The frequency table: `map[string]int64` -/

/-- The value of an `int64` computation whose mathematical result is `n`. -/
def wrapInt64 (n : Int) : Int :=
  (n + 2 ^ 63) % 2 ^ 64 - 2 ^ 63

/-- A `map[string]int64`: its entries, at most one per key. -/
abbrev Table := List (GoString × Int)

/-- The two-valued lookup `v, ok := m[w]`, `none` standing for `ok = false`. -/
def Table.lookup (t : Table) (w : GoString) : Option Int :=
  match t with
  | [] => none
  | (k, c) :: rest => if k = w then some c else Table.lookup rest w

/-- The index expression `m[w]`: the zero value for an absent key. -/
def Table.index (t : Table) (w : GoString) : Int :=
  (t.lookup w).getD 0

/-- The assignment `m[w] = v`. -/
def Table.assign (t : Table) (w : GoString) (v : Int) : Table :=
  match t with
  | [] => [(w, v)]
  | (k, c) :: rest => if k = w then (k, v) :: rest else (k, c) :: Table.assign rest w v

/-- The statement `m[w]++` on `int64` values. -/
def Table.incr (t : Table) (w : GoString) : Table :=
  t.assign w (wrapInt64 (t.index w + 1))

/-- The body of the inner loop, `main.go:53-58`, for one match `word`. -/
def countWord (u : Char → Char) (t : Table) (word : GoString) : Table :=
  if word = apostrophe then t else t.incr (toLower u word)

/-- The body of the outer loop, `main.go:51-59`, for one file content. -/
def countBook (u : Char → Char) (t : Table) (book : GoString) : Table :=
  (findAllString book).foldl (countWord u) t

/-- The map `zipfTable` after the loops of `main.go:50-59`. -/
def zipfTable (u : Char → Char) (books : List GoString) : Table :=
  books.foldl (countBook u) []

/-- Total number of characters of the input files. -/
def inputSize (books : List GoString) : Nat :=
  (books.map List.length).sum

/-! ## Maximal runs, by positions

The glossary's definition of a token, stated on positions and independent of
the scanner: the half-open interval `[i, j)` of a string is a maximal run when
it is non-empty, holds only class characters, and is bordered on both sides
by the end of the string or by a character outside the class. -/

/-- Whether position `k` of `s` exists and holds a character of the class. -/
def wordAt (s : GoString) (k : Nat) : Bool :=
  match s[k]? with
  | some c => isWordChar c
  | none => false

/-- The interval `[i, j)` of `s` is a maximal run of class characters. -/
def isMaximalRun (s : GoString) (i j : Nat) : Bool :=
  decide (i < j) && decide (j ≤ s.length) &&
  (List.range' i (j - i)).all (wordAt s) &&
  (i == 0 || !wordAt s (i - 1)) &&
  (j == s.length || !wordAt s j)

/-- The maximal runs of `s` that start at position `i`, as substrings. -/
def runsFrom (s : GoString) (i : Nat) : List GoString :=
  (List.range (s.length + 1)).filterMap fun j =>
    if isMaximalRun s i j then some ((s.drop i).take (j - i)) else none

/-- All maximal runs of `s`, as substrings, by increasing start position. -/
def maximalRuns (s : GoString) : List GoString :=
  (List.range (s.length + 1)).flatMap (runsFrom s)

/-- ASCII lower-casing of one character. -/
def asciiLowerChar (c : Char) : Char :=
  if 65 ≤ c.toNat ∧ c.toNat ≤ 90 then Char.ofNat (c.toNat + 32) else c

/-- ASCII lower-casing of a string. -/
def asciiLower (s : GoString) : GoString :=
  s.map asciiLowerChar

/-- A lower-case ASCII letter or the apostrophe. -/
def isLowerOrApostrophe (c : Char) : Bool :=
  (97 ≤ c.toNat && c.toNat ≤ 122) || c.toNat == 39

/-- The number of maximal runs in the individual strings of `books` that are
not the lone apostrophe and whose ASCII lower-case form is `w`. -/
def runCount (books : List GoString) (w : GoString) : Nat :=
  ((books.flatMap maximalRuns).filter
    fun r => decide (r ≠ apostrophe) && decide (asciiLower r = w)).length

/-! ## Ranking: `sortableWords` and `sort.Slice` -/

/-- The struct `wordOccurance` of `main.go:19-22`. -/
structure wordOccurance where
  /-- The field `Word`. -/
  Word : GoString
  /-- The field `Occurance`, an `int64`. -/
  Occurance : Int
deriving DecidableEq

/-- The `less` closure handed to `sort.Slice` at `main.go:66`, on the two
elements it reads. -/
def less (a b : wordOccurance) : Bool :=
  decide (a.Occurance > b.Occurance)

/-- Inner loop of the library's `insertionSortLessFunc`: `x` moves left past
every element it is `less` than.  The sorted prefix is given last element
first, and so is the result. -/
def siftLeft {α : Type} (lt : α → α → Bool) (x : α) : List α → List α
  | [] => [x]
  | y :: ys => if lt x y then y :: siftLeft lt x ys else x :: y :: ys

/-- A stand-in for the library call `sort.Slice(data, less)`: a stable
insertion sort, built on the loop of the library's `insertionSortLessFunc`.
The library itself is not stable: among elements that `less` does not
separate it may leave another order than this function does (by its
shell-sort pass on older versions, by its quick sort on longer slices).  The
contract it does keep is `IsSortSliceResult` below, which this function
meets (`sortSlice_isSortSliceResult`) and which every list already in `less`
order attains (`sortSlice_of_pairwise`); what is concluded from this function
does not depend on the order among equal elements, and the claims that speak
of every tie-breaking quantify over `IsSortSliceResult`. -/
def sortSlice {α : Type} (lt : α → α → Bool) (data : List α) : List α :=
  (data.foldl (fun sorted x => siftLeft lt x sorted) []).reverse

/-- The contract of `sort.Slice`: `out` is a rearrangement of `data` in which
no element is `less` than one before it. -/
def IsSortSliceResult {α : Type} (lt : α → α → Bool) (data out : List α) : Prop :=
  out.Perm data ∧ out.Pairwise (fun a b => lt b a = false)

/-- The loop of `main.go:63-65`: one `wordOccurance` per map entry, in the
iteration order `order` of the map. -/
def appendEntries (order : Table) : List wordOccurance :=
  order.map fun e => { Word := e.1, Occurance := e.2 }

/-- The slice `sortableWords` after `main.go:62-66`, for the iteration
order `order` of `zipfTable`. -/
def sortableWords (order : Table) : List wordOccurance :=
  sortSlice less (appendEntries order)

/-! ## Selection, `drawGraph` and the console loop -/

deriving instance DecidableEq for Except

/-- The run-time panics of the statements embedded here. -/
inductive Panic where
  | sliceBoundsOutOfRange
  | indexOutOfRange
  | nilDereference
  | makeLenOutOfRange
deriving DecidableEq

/-- The slice expression `xs[0:n]` on a slice of pointers with capacity
`cap`: it panics unless `0 ≤ n ≤ cap`; positions between the length and the
capacity hold the nil pointer (`none`). -/
def sliceTo {α : Type} (xs : List α) (cap : Nat) (n : Int) : Except Panic (List (Option α)) :=
  if n < 0 ∨ (cap : Int) < n then .error .sliceBoundsOutOfRange
  else .ok ((xs.map some ++ List.replicate (cap - xs.length) none).take n.toNat)

/-- The conversion `float64(x)` of an `int64`, as the integer the resulting
float denotes: exact below `2^53`, otherwise rounded to 53 significant bits,
ties to even. -/
def float64OfInt64 (n : Int) : Int :=
  let a := n.natAbs
  if a < 2 ^ 53 then n
  else
    let e := Nat.log2 a - 52
    let q := a / 2 ^ e
    let r := a % 2 ^ e
    let h := 2 ^ (e - 1)
    let q' := if h < r ∨ (r = h ∧ q % 2 = 1) then q + 1 else q
    (if n < 0 then -1 else 1) * ((q' * 2 ^ e : Nat) : Int)

/-- The fields of `chart.Value` that `drawGraph` sets. -/
structure ChartValue where
  /-- The field `Label`. -/
  Label : GoString
  /-- The field `Value`, a `float64` holding an integer. -/
  Value : Int
deriving DecidableEq

/-- The fields of `chart.BarChart` that depend on the data. -/
structure BarChart where
  /-- The field `YAxis.Range.Max`. -/
  Max : Int
  /-- The field `Bars`. -/
  Bars : List ChartValue
deriving DecidableEq

/-- The loop of `main.go:117-122` from position `index` on: reading
`word.Word` through a nil pointer panics, and so does writing
`chartValues[index]` outside the allocated bars. -/
def fillBars : List (Option wordOccurance) → Nat → List ChartValue → Except Panic (List ChartValue)
  | [], _, chartValues => .ok chartValues
  | none :: _, _, _ => .error .nilDereference
  | some word :: rest, index, chartValues =>
    if index < chartValues.length then
      fillBars rest (index + 1)
        (chartValues.set index { Label := word.Word, Value := float64OfInt64 word.Occurance })
    else .error .indexOutOfRange

/-- The chart `drawGraph` builds (`main.go:115-142`) before rendering it,
with `topx` the value of the flag it reads. -/
def drawGraph (topx : Int) (words : List (Option wordOccurance)) : Except Panic BarChart :=
  if topx < 0 then .error .makeLenOutOfRange
  else
    match fillBars words 0 (List.replicate topx.toNat { Label := [], Value := 0 }) with
    | .error e => .error e
    | .ok chartValues =>
      match chartValues with
      | [] => .error .indexOutOfRange
      | first :: _ => .ok { Max := first.Value, Bars := chartValues }

/-- The reads `sortableWords[i]` of the console loop (`main.go:85-87`) for
the positions `is`, giving the word and count of each printed line. -/
def printLines (sw : List wordOccurance) : List Nat → Except Panic (List (GoString × Int))
  | [] => .ok []
  | i :: is =>
    match sw[i]? with
    | none => .error .indexOutOfRange
    | some w =>
      match printLines sw is with
      | .error e => .error e
      | .ok lines => .ok ((w.Word, w.Occurance) :: lines)

/-- The console loop `for i := 0; i < *topx; i++` of `main.go:85-87`. -/
def consoleLoop (topx : Int) (sw : List wordOccurance) : Except Panic (List (GoString × Int)) :=
  printLines sw (List.range topx.toNat)

/-- The rendering stage of `main` (`main.go:70-88`) up to the external
renderer and the file write: the selection, the chart of `drawGraph`, and the
lines of the console loop when `cliOut` is set.  `cap` is the capacity of
`sortableWords`.  The flag `noGraph` does not appear: `main` calls
`drawGraph` whatever its value, and it only skips the file write. -/
def renderStage (topx : Int) (cliOut : Bool) (sw : List wordOccurance) (cap : Nat) :
    Except Panic (BarChart × List (GoString × Int)) :=
  match sliceTo sw cap topx with
  | .error e => .error e
  | .ok selection =>
    match drawGraph topx selection with
    | .error e => .error e
    | .ok chart =>
      if cliOut then
        match consoleLoop topx sw with
        | .error e => .error e
        | .ok lines => .ok (chart, lines)
      else .ok (chart, [])

/-- The largest count of a table is `m`: some entry has it, none exceeds it. -/
def IsLargestCount (t : Table) (m : Int) : Prop :=
  (∃ e ∈ t, e.2 = m) ∧ ∀ e ∈ t, e.2 ≤ m

/-- Sum of all counts of a table. -/
def Table.total (t : Table) : Int :=
  (t.map Prod.snd).sum

/-- The keys incremented by the loops of `main.go:51-59`, in order: the
matches of every file, without the lone apostrophes, lower-cased. -/
def countedWords (u : Char → Char) (books : List GoString) : List GoString :=
  ((books.flatMap findAllString).filter fun word => decide (word ≠ apostrophe)).map (toLower u)

/-- The keys of a table, in entry order. -/
def Table.keys (t : Table) : List GoString :=
  t.map Prod.fst

/-! ## Auxiliary definitions for the proofs about runs -/

/-- Variant of `isMaximalRun` for a string that continues a longer one:
`prev` tells whether the character before position 0 is a class character. -/
def isRunAfter (prev : Bool) (s : GoString) (i j : Nat) : Bool :=
  decide (i < j) && decide (j ≤ s.length) &&
  (List.range' i (j - i)).all (wordAt s) &&
  (if i = 0 then !prev else !wordAt s (i - 1)) &&
  (j == s.length || !wordAt s j)

/-- Variant of `runsFrom` for `isRunAfter`. -/
def runsFromAfter (prev : Bool) (s : GoString) (i : Nat) : List GoString :=
  (List.range (s.length + 1)).filterMap fun j =>
    if isRunAfter prev s i j then some ((s.drop i).take (j - i)) else none

/-- Variant of `maximalRuns` for `isRunAfter`. -/
def runsAfter (prev : Bool) (s : GoString) : List GoString :=
  (List.range (s.length + 1)).flatMap (runsFromAfter prev s)

/-- The matches of the scanner on `s` when the character before `s` is a
class character (`prev`): the run in progress is not a match of its own. -/
def scanAfter (prev : Bool) (s : GoString) : List GoString :=
  findAllString (if prev then s.dropWhile isWordChar else s)

/-! ## Concrete inputs -/

/-- First file of the end-to-end scenario of the specification. -/
def fileOne : GoString := "The cat sat. The cat ran.".toList

/-- Second file of the end-to-end scenario of the specification. -/
def fileTwo : GoString := "A cat and a dog.".toList

/-- The two files of the end-to-end scenario, in order. -/
def scenarioBooks : List GoString := [fileOne, fileTwo]

/-- The contraction used as an example by the specification. -/
def dont : GoString := "don't".toList

/-- One entry of the Unicode tables behind `unicode.ToLower`: the capital
dotted I, U+0130, has the lower case `i`, U+0069.  Every other rune beyond
ASCII is left alone here. -/
def unicodeLowerDottedI (c : Char) : Char :=
  if c.toNat = 304 then Char.ofNat 105 else c

/-- The word `İstanbul`, spelt with the capital dotted I, U+0130. -/
def istanbulDotted : GoString := Char.ofNat 304 :: "stanbul".toList

/-- The word `istanbul` in lower case, all ASCII. -/
def istanbulLower : GoString := "istanbul".toList

/-- The entry `cat: 3` of the scenario. -/
def catEntry : wordOccurance := { Word := "cat".toList, Occurance := 3 }

/-- The entry `the: 2` of the scenario. -/
def theEntry : wordOccurance := { Word := "the".toList, Occurance := 2 }

/-- The entry `a: 2` of the scenario. -/
def aEntry : wordOccurance := { Word := "a".toList, Occurance := 2 }

/-- The entries of the scenario table, in the order the words first occur. -/
def scenarioEntries : List wordOccurance :=
  [theEntry, catEntry, { Word := "sat".toList, Occurance := 1 },
   { Word := "ran".toList, Occurance := 1 }, aEntry,
   { Word := "and".toList, Occurance := 1 }, { Word := "dog".toList, Occurance := 1 }]

/-! # Theorems -/

/-! ### The scanner and the maximal runs -/

theorem findAllAux_acc (cs acc : GoString) (h : acc ≠ []) :
    findAllAux cs acc =
      (acc.reverse ++ cs.takeWhile isWordChar) :: findAllAux (cs.dropWhile isWordChar) [] := by
  induction cs generalizing acc with
  | nil => simp [findAllAux, h]
  | cons c cs ih =>
    by_cases hc : isWordChar c = true
    · simp [findAllAux, hc, ih (c :: acc) (by simp), List.takeWhile_cons, List.dropWhile_cons]
    · simp [findAllAux, hc, h, List.takeWhile_cons, List.dropWhile_cons]

theorem scanAfter_cons (prev : Bool) (c : Char) (cs : GoString) :
    scanAfter prev (c :: cs) =
      (if isWordChar c && !prev then [c :: cs.takeWhile isWordChar] else []) ++
        scanAfter (isWordChar c) cs := by
  by_cases hc : isWordChar c = true
  · cases prev
    · simp [scanAfter, findAllString, findAllAux, hc, findAllAux_acc cs [c] (by simp)]
    · simp [scanAfter, findAllString, hc, List.dropWhile_cons]
  · cases prev <;> simp [scanAfter, findAllString, findAllAux, hc, List.dropWhile_cons]

theorem wordAt_cons_zero (c : Char) (cs : GoString) : wordAt (c :: cs) 0 = isWordChar c := by
  simp [wordAt]

theorem wordAt_cons_succ (c : Char) (cs : GoString) (k : Nat) :
    wordAt (c :: cs) (k + 1) = wordAt cs k := by
  simp [wordAt]

theorem wordAt_of_length_le (s : GoString) (k : Nat) (h : s.length ≤ k) : wordAt s k = false := by
  simp [wordAt, List.getElem?_eq_none h]

theorem all_wordAt_shift (c : Char) (cs : GoString) (i n : Nat) :
    (List.range' (i + 1) n).all (wordAt (c :: cs)) = (List.range' i n).all (wordAt cs) := by
  induction n generalizing i with
  | zero => simp
  | succ n ih => simp [List.range'_succ, ih, wordAt_cons_succ]

theorem isRunAfter_shift (prev : Bool) (c : Char) (cs : GoString) (i j : Nat) :
    isRunAfter prev (c :: cs) (i + 1) (j + 1) = isRunAfter (isWordChar c) cs i j := by
  unfold isRunAfter
  rw [show j + 1 - (i + 1) = j - i by omega, all_wordAt_shift, wordAt_cons_succ]
  cases i with
  | zero => simp [wordAt_cons_zero]
  | succ i => simp [wordAt_cons_succ]

theorem runsFromAfter_shift (prev : Bool) (c : Char) (cs : GoString) (i : Nat) :
    runsFromAfter prev (c :: cs) (i + 1) = runsFromAfter (isWordChar c) cs i := by
  unfold runsFromAfter
  rw [List.length_cons, List.range_succ_eq_map (cs.length + 1), List.filterMap_cons]
  have h0 : isRunAfter prev (c :: cs) (i + 1) 0 = false := by simp [isRunAfter]
  simp only [h0, List.filterMap_map]
  apply List.filterMap_congr
  intro j _
  simp [isRunAfter_shift]

theorem runsAfter_cons (prev : Bool) (c : Char) (cs : GoString) :
    runsAfter prev (c :: cs) =
      runsFromAfter prev (c :: cs) 0 ++ runsAfter (isWordChar c) cs := by
  unfold runsAfter
  rw [List.length_cons, List.range_succ_eq_map (cs.length + 1), List.flatMap_cons,
    List.flatMap_map]
  congr 1
  apply List.flatMap_congr
  intro i _
  exact runsFromAfter_shift prev c cs i

theorem filterMap_range_none {β : Type} (f : Nat → Option β) (m : Nat)
    (hf : ∀ j, j < m → f j = none) : (List.range m).filterMap f = [] := by
  rw [List.filterMap_eq_nil_iff]
  intro j hj
  exact hf j (List.mem_range.mp hj)

theorem filterMap_range_single {β : Type} (f : Nat → Option β) (m j0 : Nat) (b : β)
    (h0 : j0 < m) (hb : f j0 = some b) (hf : ∀ j, j < m → j ≠ j0 → f j = none) :
    (List.range m).filterMap f = [b] := by
  induction m with
  | zero => omega
  | succ m ih =>
    rw [List.range_succ, List.filterMap_append]
    by_cases hj : j0 = m
    · subst hj
      rw [filterMap_range_none f j0 (fun j hj => hf j (by omega) (by omega))]
      simp [hb]
    · rw [ih (by omega) (fun j hj hne => hf j (by omega) hne)]
      simp [hf m (by omega) (fun h => hj h.symm)]

theorem takeWhile_length_iff (s : GoString) (j : Nat) :
    ((∀ k, k < j → wordAt s k = true) ∧ wordAt s j = false) ↔
      j = (s.takeWhile isWordChar).length := by
  induction s generalizing j with
  | nil =>
    constructor
    · rintro ⟨h, -⟩
      cases j with
      | zero => rfl
      | succ j => simpa [wordAt] using h 0 (by omega)
    · intro h
      subst h
      simp [wordAt]
  | cons c cs ih =>
    by_cases hc : isWordChar c = true
    · rw [List.takeWhile_cons_of_pos hc, List.length_cons]
      cases j with
      | zero => simp [wordAt_cons_zero, hc]
      | succ j =>
        rw [wordAt_cons_succ, Nat.add_right_cancel_iff, ← ih j]
        constructor
        · rintro ⟨h, h2⟩
          exact ⟨fun k hk => by simpa [wordAt_cons_succ] using h (k + 1) (by omega), h2⟩
        · rintro ⟨h, h2⟩
          refine ⟨fun k hk => ?_, h2⟩
          cases k with
          | zero => simpa [wordAt_cons_zero] using hc
          | succ k => simpa [wordAt_cons_succ] using h k (by omega)
    · rw [List.takeWhile_cons_of_neg hc, List.length_nil]
      cases j with
      | zero => simp [wordAt_cons_zero, hc]
      | succ j =>
        constructor
        · rintro ⟨h, -⟩
          have := h 0 (by omega)
          rw [wordAt_cons_zero] at this
          exact absurd this hc
        · intro h
          omega

theorem take_takeWhile_length (s : GoString) :
    s.take (s.takeWhile isWordChar).length = s.takeWhile isWordChar := by
  induction s with
  | nil => rfl
  | cons c cs ih =>
    by_cases hc : isWordChar c = true
    · simp [List.takeWhile_cons_of_pos hc, ih]
    · simp [List.takeWhile_cons_of_neg hc]

theorem isRunAfter_zero_iff (prev : Bool) (s : GoString) (j : Nat) :
    isRunAfter prev s 0 j = true ↔
      prev = false ∧ 0 < j ∧ j = (s.takeWhile isWordChar).length := by
  rw [← takeWhile_length_iff]
  simp only [isRunAfter, Bool.and_eq_true, decide_eq_true_eq, List.all_eq_true,
    List.mem_range'_1, Nat.sub_zero, Nat.zero_add, Nat.zero_le, true_and, if_true,
    Bool.not_eq_true', Bool.or_eq_true, beq_iff_eq]
  constructor
  · rintro ⟨⟨⟨⟨h1, h2⟩, h3⟩, h4⟩, h5⟩
    refine ⟨h4, h1, h3, ?_⟩
    rcases h5 with h5 | h5
    · exact wordAt_of_length_le s j (by omega)
    · exact h5
  · rintro ⟨h4, h1, h3, h5⟩
    refine ⟨⟨⟨⟨h1, ?_⟩, h3⟩, h4⟩, Or.inr h5⟩
    by_contra hlt
    have := h3 (j - 1) (by omega)
    rw [wordAt_of_length_le s (j - 1) (by omega)] at this
    exact absurd this (by simp)

theorem runsFromAfter_zero (prev : Bool) (c : Char) (cs : GoString) :
    runsFromAfter prev (c :: cs) 0 =
      if isWordChar c && !prev then [c :: cs.takeWhile isWordChar] else [] := by
  unfold runsFromAfter
  by_cases h : (isWordChar c && !prev) = true
  · rw [if_pos h]
    simp only [Bool.and_eq_true, Bool.not_eq_true'] at h
    obtain ⟨hc, hp⟩ := h
    have hlen : ((c :: cs).takeWhile isWordChar).length ≤ (c :: cs).length :=
      (List.takeWhile_sublist _).length_le
    have hpos : 0 < ((c :: cs).takeWhile isWordChar).length := by
      simp [List.takeWhile_cons_of_pos hc]
    apply filterMap_range_single _ _ ((c :: cs).takeWhile isWordChar).length
    · omega
    · rw [if_pos ((isRunAfter_zero_iff prev (c :: cs) _).mpr ⟨hp, hpos, rfl⟩)]
      simp only [List.drop_zero, Nat.sub_zero]
      rw [take_takeWhile_length, List.takeWhile_cons_of_pos hc]
    · intro j _ hne
      rw [if_neg]
      intro hrun
      exact hne ((isRunAfter_zero_iff prev (c :: cs) j).mp hrun).2.2
  · rw [if_neg h]
    apply filterMap_range_none
    intro j _
    rw [if_neg]
    intro hrun
    obtain ⟨hp, hpos, hj⟩ := (isRunAfter_zero_iff prev (c :: cs) j).mp hrun
    apply h
    simp only [Bool.and_eq_true, Bool.not_eq_true']
    refine ⟨?_, hp⟩
    by_contra hc
    rw [List.takeWhile_cons_of_neg hc] at hj
    simp at hj
    omega

theorem runsAfter_eq_scanAfter (prev : Bool) (s : GoString) :
    runsAfter prev s = scanAfter prev s := by
  induction s generalizing prev with
  | nil => cases prev <;> rfl
  | cons c cs ih => rw [runsAfter_cons, runsFromAfter_zero, scanAfter_cons, ih]

theorem isRunAfter_false (s : GoString) (i j : Nat) :
    isRunAfter false s i j = isMaximalRun s i j := by
  unfold isRunAfter isMaximalRun
  cases i <;> simp

/-- The positional definition of the maximal runs of a string and the
scanner of `findAllString` list the same substrings in the same order. -/
theorem maximalRuns_eq_findAllString (s : GoString) : maximalRuns s = findAllString s := by
  have h := runsAfter_eq_scanAfter false s
  simp only [scanAfter, Bool.false_eq_true, if_false] at h
  rw [← h]
  unfold maximalRuns runsAfter runsFrom runsFromAfter
  simp only [isRunAfter_false]

/-! ### The table operations -/

theorem lookup_assign (t : Table) (w w' : GoString) (v : Int) :
    (t.assign w v).lookup w' = if w = w' then some v else t.lookup w' := by
  induction t with
  | nil => simp [Table.assign, Table.lookup]
  | cons e rest ih =>
    obtain ⟨k, c⟩ := e
    by_cases hk : k = w
    · subst hk
      by_cases hw : k = w' <;> simp [Table.assign, Table.lookup, hw]
    · by_cases hw : w = w'
      · subst hw
        simp [Table.assign, Table.lookup, hk, ih]
      · have hw2 : ¬ w' = w := fun h => hw h.symm
        by_cases hk' : k = w'
        · subst hk'
          simp [Table.assign, Table.lookup, hw, hw2]
        · simp [Table.assign, Table.lookup, hk, hk', hw, ih]

theorem lookup_incr (t : Table) (w w' : GoString) :
    (t.incr w).lookup w' =
      if w = w' then some (wrapInt64 (t.index w + 1)) else t.lookup w' := by
  simp [Table.incr, lookup_assign]

theorem index_incr (t : Table) (w w' : GoString) :
    (t.incr w).index w' = if w = w' then wrapInt64 (t.index w + 1) else t.index w' := by
  show ((t.incr w).lookup w').getD 0 = _
  rw [lookup_incr]
  split <;> rfl

theorem wrapInt64_of_bounds (n : Int) (h1 : -(2 ^ 63) ≤ n) (h2 : n < 2 ^ 63) :
    wrapInt64 n = n := by
  unfold wrapInt64
  rw [Int.emod_eq_of_lt (by omega) (by omega)]
  omega

theorem keys_assign (t : Table) (w : GoString) (v : Int) :
    (t.assign w v).keys = if w ∈ t.keys then t.keys else t.keys ++ [w] := by
  induction t with
  | nil => simp [Table.assign, Table.keys]
  | cons e rest ih =>
    obtain ⟨k, c⟩ := e
    by_cases hk : k = w
    · subst hk
      simp [Table.assign, Table.keys]
    · have hk' : ¬ w = k := fun h => hk h.symm
      have ih' := ih
      simp only [Table.keys] at ih'
      simp only [Table.assign, Table.keys, hk, if_false, List.map_cons, List.mem_cons, hk',
        false_or, ih']
      split <;> simp

theorem nodup_keys_assign (t : Table) (w : GoString) (v : Int) (h : t.keys.Nodup) :
    (t.assign w v).keys.Nodup := by
  rw [keys_assign]
  split
  · exact h
  · rename_i hw
    rw [List.nodup_append]
    refine ⟨h, by simp, ?_⟩
    intro a ha hb
    simp only [List.mem_singleton] at hb
    exact hw (hb ▸ ha)

theorem lookup_eq_none_iff (t : Table) (w : GoString) : t.lookup w = none ↔ w ∉ t.keys := by
  induction t with
  | nil => simp [Table.lookup, Table.keys]
  | cons e rest ih =>
    obtain ⟨k, c⟩ := e
    simp only [Table.keys] at ih
    by_cases hk : k = w
    · simp [Table.lookup, Table.keys, hk]
    · have hk' : ¬ w = k := fun h => hk h.symm
      simp [Table.lookup, Table.keys, hk, hk', ih]

theorem mem_iff_lookup (t : Table) (h : t.keys.Nodup) (k : GoString) (c : Int) :
    (k, c) ∈ t ↔ t.lookup k = some c := by
  induction t with
  | nil => simp [Table.lookup]
  | cons e rest ih =>
    obtain ⟨k0, c0⟩ := e
    simp only [Table.keys, List.map_cons, List.nodup_cons] at h
    have ih' := ih h.2
    by_cases hk : k0 = k
    · subst hk
      simp only [List.mem_cons, Prod.mk.injEq, true_and, Table.lookup, if_true, Option.some.injEq]
      constructor
      · rintro (h1 | h1)
        · exact h1.symm
        · exact absurd (List.mem_map_of_mem Prod.fst h1) h.1
      · intro h1
        exact Or.inl h1.symm
    · have hk' : ¬ k = k0 := fun h => hk h.symm
      simp [Table.lookup, hk, hk', ih']

theorem total_assign (t : Table) (w : GoString) (v : Int) :
    (t.assign w v).total = t.total - t.index w + v := by
  induction t with
  | nil => simp [Table.assign, Table.total, Table.index, Table.lookup]
  | cons e rest ih =>
    obtain ⟨k, c⟩ := e
    by_cases hk : k = w
    · simp only [Table.assign, Table.total, Table.index, Table.lookup, hk, if_true,
        List.map_cons, List.sum_cons, Option.getD_some]
      omega
    · simp only [Table.total, Table.index] at ih
      simp only [Table.assign, Table.total, Table.index, Table.lookup, hk, if_false,
        List.map_cons, List.sum_cons, ih]
      omega

/-! ### The loops as one fold over the counted words -/

theorem foldl_countWord (u : Char → Char) (ws : List GoString) (t : Table) :
    ws.foldl (countWord u) t =
      ((ws.filter fun word => decide (word ≠ apostrophe)).map (toLower u)).foldl Table.incr t := by
  induction ws generalizing t with
  | nil => rfl
  | cons x xs ih =>
    by_cases hx : x = apostrophe
    · simp [countWord, hx, ih]
    · simp [countWord, hx, ih]

theorem foldl_countBook (u : Char → Char) (books : List GoString) (t : Table) :
    books.foldl (countBook u) t = (books.flatMap findAllString).foldl (countWord u) t := by
  induction books generalizing t with
  | nil => rfl
  | cons b bs ih => simp [countBook, List.flatMap_cons, List.foldl_append, ih]

theorem zipfTable_eq_foldl (u : Char → Char) (books : List GoString) :
    zipfTable u books = (countedWords u books).foldl Table.incr [] := by
  unfold zipfTable countedWords
  rw [foldl_countBook, foldl_countWord]

theorem index_foldl_incr (ws : List GoString) (t : Table) (w : GoString)
    (h0 : 0 ≤ t.index w) (h1 : t.index w + (ws.count w : Int) < 2 ^ 63) :
    (ws.foldl Table.incr t).index w = t.index w + (ws.count w : Int) := by
  induction ws generalizing t with
  | nil => simp
  | cons x xs ih =>
    rw [List.foldl_cons]
    by_cases hx : x = w
    · subst hx
      simp only [List.count_cons_self, Nat.cast_add, Nat.cast_one] at h1 ⊢
      have hi : (t.incr x).index x = t.index x + 1 := by
        rw [index_incr, if_pos rfl, wrapInt64_of_bounds _ (by omega) (by omega)]
      rw [ih (t.incr x) (by omega) (by omega), hi]
      omega
    · have hc : (x :: xs).count w = xs.count w := List.count_cons_of_ne (fun h => hx h.symm) xs
      rw [hc] at h1 ⊢
      have hi : (t.incr x).index w = t.index w := by rw [index_incr, if_neg hx]
      rw [ih (t.incr x) (by omega) (by omega), hi]

theorem lookup_foldl_incr_none (ws : List GoString) (t : Table) (w : GoString) :
    (ws.foldl Table.incr t).lookup w = none ↔ t.lookup w = none ∧ w ∉ ws := by
  induction ws generalizing t with
  | nil => simp
  | cons x xs ih =>
    rw [List.foldl_cons, ih, lookup_incr]
    by_cases hx : x = w
    · simp [hx]
    · have hx' : ¬ w = x := fun h => hx h.symm
      simp [hx, hx']

theorem nodup_keys_foldl_incr (ws : List GoString) (t : Table) (h : t.keys.Nodup) :
    (ws.foldl Table.incr t).keys.Nodup := by
  induction ws generalizing t with
  | nil => exact h
  | cons x xs ih => exact ih _ (nodup_keys_assign t x _ h)

theorem total_foldl_incr (ws : List GoString) (t : Table)
    (h : ∀ w, 0 ≤ t.index w ∧ t.index w + (ws.count w : Int) < 2 ^ 63) :
    (ws.foldl Table.incr t).total = t.total + ws.length := by
  induction ws generalizing t with
  | nil => simp
  | cons x xs ih =>
    have hx := h x
    simp only [List.count_cons_self, Nat.cast_add, Nat.cast_one] at hx
    have hi : ∀ w, (t.incr x).index w = if x = w then t.index x + 1 else t.index w := by
      intro w
      rw [index_incr, wrapInt64_of_bounds _ (by omega) (by omega)]
    rw [List.foldl_cons, ih]
    · rw [Table.incr, total_assign, wrapInt64_of_bounds _ (by omega) (by omega)]
      simp only [List.length_cons, Nat.cast_add, Nat.cast_one]
      omega
    · intro w
      have hw := h w
      rw [hi]
      by_cases hxw : x = w
      · subst hxw
        simp only [List.count_cons_self, Nat.cast_add, Nat.cast_one] at hw
        rw [if_pos rfl]
        omega
      · rw [List.count_cons_of_ne (fun h => hxw h.symm)] at hw
        rw [if_neg hxw]
        exact hw

theorem zipfTable_nodup_keys (u : Char → Char) (books : List GoString) :
    (zipfTable u books).keys.Nodup := by
  rw [zipfTable_eq_foldl]
  exact nodup_keys_foldl_incr _ [] (by simp [Table.keys])

/-! ### The matches: shape and number -/

theorem findAllAux_nil (acc : GoString) (h : acc ≠ []) : findAllAux [] acc = [acc.reverse] := by
  simp [findAllAux, h]

theorem findAllAux_cons_pos (c : Char) (cs acc : GoString) (hc : isWordChar c = true) :
    findAllAux (c :: cs) acc = findAllAux cs (c :: acc) := by
  simp [findAllAux, hc]

theorem findAllAux_cons_neg_nil (c : Char) (cs : GoString) (hc : ¬ isWordChar c = true) :
    findAllAux (c :: cs) [] = findAllAux cs [] := by
  simp [findAllAux, hc]

theorem findAllAux_cons_neg (c : Char) (cs acc : GoString) (hc : ¬ isWordChar c = true)
    (h : acc ≠ []) : findAllAux (c :: cs) acc = acc.reverse :: findAllAux cs [] := by
  simp [findAllAux, hc, h]

theorem findAllAux_shape (cs acc : GoString) (hacc : ∀ c ∈ acc, isWordChar c = true) :
    ∀ r ∈ findAllAux cs acc, r ≠ [] ∧ ∀ c ∈ r, isWordChar c = true := by
  induction cs generalizing acc with
  | nil =>
    intro r hr
    by_cases h : acc = []
    · simp [findAllAux, h] at hr
    · rw [findAllAux_nil acc h, List.mem_singleton] at hr
      rw [hr]
      exact ⟨by simpa using h, fun c hc => hacc c (List.mem_reverse.mp hc)⟩
  | cons c cs ih =>
    intro r hr
    by_cases hc : isWordChar c = true
    · rw [findAllAux_cons_pos c cs acc hc] at hr
      refine ih (c :: acc) ?_ r hr
      intro d hd
      rcases List.mem_cons.mp hd with h | h
      · exact h ▸ hc
      · exact hacc d h
    · by_cases h : acc = []
      · rw [h, findAllAux_cons_neg_nil c cs hc] at hr
        exact ih [] (by simp) r hr
      · rw [findAllAux_cons_neg c cs acc hc h, List.mem_cons] at hr
        rcases hr with hr | hr
        · rw [hr]
          exact ⟨by simpa using h, fun c hc => hacc c (List.mem_reverse.mp hc)⟩
        · exact ih [] (by simp) r hr

theorem findAllString_shape (s : GoString) :
    ∀ r ∈ findAllString s, r ≠ [] ∧ ∀ c ∈ r, isWordChar c = true :=
  findAllAux_shape s [] (by simp)

theorem findAllAux_length_le (cs acc : GoString) :
    (findAllAux cs acc).length ≤ cs.length + acc.length := by
  induction cs generalizing acc with
  | nil =>
    by_cases h : acc = []
    · simp [findAllAux, h]
    · have : 0 < acc.length := List.length_pos.mpr h
      rw [findAllAux_nil acc h]
      simp only [List.length_singleton, List.length_nil]
      omega
  | cons c cs ih =>
    by_cases hc : isWordChar c = true
    · have := ih (c :: acc)
      rw [findAllAux_cons_pos c cs acc hc]
      simp only [List.length_cons] at this ⊢
      omega
    · by_cases h : acc = []
      · have := ih []
        rw [h, findAllAux_cons_neg_nil c cs hc]
        simp only [List.length_cons, List.length_nil] at this ⊢
        omega
      · have := ih []
        have hpos : 0 < acc.length := List.length_pos.mpr h
        rw [findAllAux_cons_neg c cs acc hc h]
        simp only [List.length_cons, List.length_nil] at this ⊢
        omega

theorem countedWords_length_le (u : Char → Char) (books : List GoString) :
    (countedWords u books).length ≤ inputSize books := by
  unfold countedWords inputSize
  rw [List.length_map]
  refine le_trans (List.length_filter_le _ _) ?_
  induction books with
  | nil => simp
  | cons b bs ih =>
    have := findAllAux_length_le b []
    simp only [List.flatMap_cons, List.length_append, List.map_cons, List.sum_cons,
      findAllString, List.length_nil] at this ⊢
    omega

theorem toLowerRune_of_isWordChar (u : Char → Char) (c : Char) (h : isWordChar c = true) :
    toLowerRune u c = asciiLowerChar c := by
  unfold toLowerRune asciiLowerChar
  have : c.toNat < 128 := by
    simp only [isWordChar, Bool.or_eq_true, Bool.and_eq_true, decide_eq_true_eq, beq_iff_eq] at h
    omega
  rw [if_pos this]

theorem toLower_of_isWordChar (u : Char → Char) (r : GoString)
    (h : ∀ c ∈ r, isWordChar c = true) : toLower u r = asciiLower r := by
  unfold toLower asciiLower
  exact List.map_congr_left fun c hc => toLowerRune_of_isWordChar u c (h c hc)

theorem count_map_filter (u : Char → Char) (l : List GoString) (w : GoString)
    (h : ∀ r ∈ l, ∀ c ∈ r, isWordChar c = true) :
    ((l.filter fun word => decide (word ≠ apostrophe)).map (toLower u)).count w =
      (l.filter fun r => decide (r ≠ apostrophe) && decide (asciiLower r = w)).length := by
  induction l with
  | nil => rfl
  | cons x xs ih =>
    have hx := toLower_of_isWordChar u x (h x (List.mem_cons_self _ _))
    have ih' := ih fun r hr => h r (List.mem_cons_of_mem _ hr)
    by_cases h1 : x = apostrophe
    · rw [List.filter_cons_of_neg (by simp [h1]), List.filter_cons_of_neg (by simp [h1])]
      exact ih'
    · rw [List.filter_cons_of_pos (by simp [h1]), List.map_cons, hx]
      by_cases h2 : asciiLower x = w
      · rw [List.filter_cons_of_pos (by simp [h1, h2]), h2, List.count_cons_self,
          List.length_cons, ih']
      · rw [List.filter_cons_of_neg (by simp [h1, h2]),
          List.count_cons_of_ne (fun h => h2 h.symm), ih']

theorem count_countedWords (u : Char → Char) (books : List GoString) (w : GoString) :
    (countedWords u books).count w = runCount books w := by
  unfold countedWords runCount
  have hm : books.flatMap maximalRuns = books.flatMap findAllString :=
    List.flatMap_congr fun b _ => maximalRuns_eq_findAllString b
  rw [hm]
  apply count_map_filter
  intro r hr
  obtain ⟨b, -, hb⟩ := List.mem_flatMap.mp hr
  exact (findAllString_shape b r hb).2

/-! ### Case folding -/

theorem toNat_ofNat_small (n : Nat) (h : n < 55296) : (Char.ofNat n).toNat = n := by
  have hv : n.isValidChar := Or.inl h
  unfold Char.ofNat
  rw [dif_pos hv]
  simp [Char.toNat, Char.ofNatAux, UInt32.toNat]

theorem toNat_asciiLowerChar (c : Char) :
    (asciiLowerChar c).toNat = if 65 ≤ c.toNat ∧ c.toNat ≤ 90 then c.toNat + 32 else c.toNat := by
  unfold asciiLowerChar
  split
  · rename_i h
    exact toNat_ofNat_small _ (by omega)
  · rfl

theorem isWordChar_asciiLowerChar (c : Char) : isWordChar (asciiLowerChar c) = isWordChar c := by
  unfold isWordChar
  rw [toNat_asciiLowerChar]
  by_cases h : 65 ≤ c.toNat ∧ c.toNat ≤ 90
  · rw [if_pos h, Bool.eq_iff_iff]
    simp only [Bool.or_eq_true, Bool.and_eq_true, decide_eq_true_eq, beq_iff_eq]
    omega
  · rw [if_neg h]

theorem isLowerOrApostrophe_asciiLowerChar (c : Char) (h : isWordChar c = true) :
    isLowerOrApostrophe (asciiLowerChar c) = true := by
  unfold isLowerOrApostrophe
  rw [toNat_asciiLowerChar]
  simp only [isWordChar, Bool.or_eq_true, Bool.and_eq_true, decide_eq_true_eq, beq_iff_eq] at h ⊢
  split <;> omega

theorem asciiLowerChar_eq_apostrophe (c : Char) :
    asciiLowerChar c = apostropheChar ↔ c = apostropheChar := by
  constructor
  · intro h
    have h1 := congrArg Char.toNat h
    rw [toNat_asciiLowerChar] at h1
    have h2 : apostropheChar.toNat = 39 := by decide
    rw [h2] at h1
    have h3 : c.toNat = 39 := by
      split at h1 <;> omega
    have := Char.ofNat_toNat c
    rw [h3] at this
    exact this.symm
  · intro h
    subst h
    decide

theorem asciiLower_eq_apostrophe (r : GoString) : asciiLower r = apostrophe ↔ r = apostrophe := by
  unfold asciiLower apostrophe
  cases r with
  | nil => simp
  | cons c cs =>
    cases cs with
    | nil => simp [asciiLowerChar_eq_apostrophe]
    | cons d ds => simp

theorem findAllAux_asciiLower (cs acc : GoString) :
    findAllAux (asciiLower cs) (asciiLower acc) = (findAllAux cs acc).map asciiLower := by
  induction cs generalizing acc with
  | nil =>
    by_cases h : acc = []
    · simp [asciiLower, findAllAux, h]
    · have h' : asciiLower acc ≠ [] := by simpa [asciiLower] using h
      show findAllAux [] (asciiLower acc) = _
      rw [findAllAux_nil _ h', findAllAux_nil _ h]
      simp [asciiLower]
  | cons c cs ih =>
    show findAllAux (asciiLowerChar c :: asciiLower cs) (asciiLower acc) = _
    by_cases hc : isWordChar c = true
    · have hc' : isWordChar (asciiLowerChar c) = true := by rw [isWordChar_asciiLowerChar]; exact hc
      rw [findAllAux_cons_pos _ _ _ hc', findAllAux_cons_pos _ _ _ hc]
      exact ih (c :: acc)
    · have hc' : ¬ isWordChar (asciiLowerChar c) = true := by rw [isWordChar_asciiLowerChar]; exact hc
      by_cases h : acc = []
      · subst h
        show findAllAux (asciiLowerChar c :: asciiLower cs) [] = _
        rw [findAllAux_cons_neg_nil _ _ hc', findAllAux_cons_neg_nil _ _ hc]
        exact ih []
      · have h' : asciiLower acc ≠ [] := by simpa [asciiLower] using h
        rw [findAllAux_cons_neg _ _ _ hc' h', findAllAux_cons_neg _ _ _ hc h]
        have := ih []
        simp only [asciiLower, List.map_nil] at this
        simp [asciiLower, this]

theorem findAllString_asciiLower (s : GoString) :
    findAllString (asciiLower s) = (findAllString s).map asciiLower :=
  findAllAux_asciiLower s []

/-- The counted words only depend on the ASCII lower-case form of the files:
they are the matches of the lower-cased files without the lone apostrophes. -/
theorem countedWords_eq (u : Char → Char) (books : List GoString) :
    countedWords u books =
      (((books.map asciiLower).flatMap findAllString).filter
        fun word => decide (word ≠ apostrophe)) := by
  unfold countedWords
  have h1 : (books.map asciiLower).flatMap findAllString =
      (books.flatMap findAllString).map asciiLower := by
    induction books with
    | nil => rfl
    | cons b bs ih => simp [List.flatMap_cons, findAllString_asciiLower, ih]
  have hshape : ∀ r ∈ books.flatMap findAllString, ∀ c ∈ r, isWordChar c = true := by
    intro r hr
    obtain ⟨b, -, hb⟩ := List.mem_flatMap.mp hr
    exact (findAllString_shape b r hb).2
  rw [h1]
  generalize books.flatMap findAllString = l at hshape
  induction l with
  | nil => rfl
  | cons x xs ih =>
    have hx := toLower_of_isWordChar u x (hshape x (List.mem_cons_self _ _))
    have ih' := ih fun r hr => hshape r (List.mem_cons_of_mem _ hr)
    by_cases h1 : x = apostrophe
    · have h2 : asciiLower x = apostrophe := (asciiLower_eq_apostrophe x).mpr h1
      rw [List.filter_cons_of_neg (by simp [h1]), List.map_cons,
        List.filter_cons_of_neg (by simp [h2])]
      exact ih'
    · have h2 : ¬ asciiLower x = apostrophe := fun h => h1 ((asciiLower_eq_apostrophe x).mp h)
      rw [List.filter_cons_of_pos (by simp [h1]), List.map_cons, List.map_cons,
        List.filter_cons_of_pos (by simp [h2]), hx, ih']

theorem zipfTable_unicode_irrelevant (u v : Char → Char) (books : List GoString) :
    zipfTable u books = zipfTable v books := by
  rw [zipfTable_eq_foldl, zipfTable_eq_foldl, countedWords_eq, countedWords_eq]

/-! ### Files joined by a separator -/

theorem findAllAux_append_sep (a b acc : GoString) (sep : Char)
    (hsep : ¬ isWordChar sep = true) :
    findAllAux (a ++ sep :: b) acc = findAllAux a acc ++ findAllAux b [] := by
  induction a generalizing acc with
  | nil =>
    by_cases h : acc = []
    · subst h
      rw [List.nil_append, findAllAux_cons_neg_nil _ _ hsep]
      simp [findAllAux]
    · rw [List.nil_append, findAllAux_cons_neg _ _ _ hsep h, findAllAux_nil _ h]
      rfl
  | cons c a ih =>
    rw [List.cons_append]
    by_cases hc : isWordChar c = true
    · rw [findAllAux_cons_pos _ _ _ hc, findAllAux_cons_pos _ _ _ hc, ih]
    · by_cases h : acc = []
      · subst h
        rw [findAllAux_cons_neg_nil _ _ hc, findAllAux_cons_neg_nil _ _ hc, ih]
      · rw [findAllAux_cons_neg _ _ _ hc h, findAllAux_cons_neg _ _ _ hc h, ih]
        rfl

theorem findAllString_intercalate (sep : Char) (hsep : ¬ isWordChar sep = true)
    (books : List GoString) :
    findAllString (List.intercalate [sep] books) = books.flatMap findAllString := by
  induction books with
  | nil => rfl
  | cons a t ih =>
    cases t with
    | nil => simp [List.intercalate, List.intersperse]
    | cons b r =>
      have e : List.intercalate [sep] (a :: b :: r) = a ++ sep :: List.intercalate [sep] (b :: r) := by
        simp [List.intercalate, List.intersperse]
      rw [e, findAllString, findAllAux_append_sep a _ [] sep hsep, List.flatMap_cons]
      exact congrArg _ ih

/-! ## Claims about tokenisation and aggregation -/

theorem lookup_zipfTable (u : Char → Char) (books : List GoString) (w : GoString)
    (hsize : inputSize books < 2 ^ 63) :
    (zipfTable u books).lookup w =
      if runCount books w = 0 then none else some (runCount books w : Int) := by
  rw [zipfTable_eq_foldl, ← count_countedWords u books w]
  have hlen := countedWords_length_le u books
  have hcount : (countedWords u books).count w ≤ (countedWords u books).length :=
    List.count_le_length _ _
  by_cases h0 : (countedWords u books).count w = 0
  · rw [if_pos h0, lookup_foldl_incr_none]
    exact ⟨rfl, List.count_eq_zero.mp h0⟩
  · rw [if_neg h0]
    have hidx := index_foldl_incr (countedWords u books) [] w (by simp [Table.index, Table.lookup])
      (by simp only [Table.index, Table.lookup, Option.getD_none]; omega)
    have hne : ((countedWords u books).foldl Table.incr []).lookup w ≠ none := by
      rw [Ne, lookup_foldl_incr_none]
      rintro ⟨-, hw⟩
      exact h0 (List.count_eq_zero.mpr hw)
    obtain ⟨v, hv⟩ := Option.ne_none_iff_exists'.mp hne
    rw [hv]
    simp only [Table.index, hv, Option.getD_some, Table.lookup, Option.getD_none, zero_add] at hidx
    rw [hidx]

theorem mem_countedWords_shape (u : Char → Char) (books : List GoString) (k : GoString)
    (hk : k ∈ countedWords u books) :
    k ≠ [] ∧ ∀ ch ∈ k, isLowerOrApostrophe ch = true := by
  unfold countedWords at hk
  obtain ⟨r, hr, rfl⟩ := List.mem_map.mp hk
  have hr' := (List.mem_filter.mp hr).1
  obtain ⟨b, -, hb⟩ := List.mem_flatMap.mp hr'
  obtain ⟨hne, hall⟩ := findAllString_shape b r hb
  rw [toLower_of_isWordChar u r hall]
  refine ⟨by simpa [asciiLower] using hne, ?_⟩
  intro ch hch
  obtain ⟨c, hc, rfl⟩ := List.mem_map.mp hch
  exact isLowerOrApostrophe_asciiLowerChar c (hall c hc)

/-- C1: for every sequence of file contents (of total size below `2^63`) and
every word `w`, the table built by `main` holds for `w` the number of maximal
runs of `[A-Za-z']` characters in the individual files that are not the lone
apostrophe and whose ASCII lower-case form is `w`; `w` is absent exactly when
that number is 0; hence every stored count is at least 1 and every key is a
non-empty string of lower-case letters and apostrophes. -/
theorem C1_table_counts_maximal_runs (u : Char → Char) (books : List GoString) (w : GoString)
    (hsize : inputSize books < 2 ^ 63) :
    ((zipfTable u books).lookup w =
        if runCount books w = 0 then none else some (runCount books w : Int)) ∧
    (zipfTable u books).index w = (runCount books w : Int) ∧
    ((zipfTable u books).lookup w = none ↔ runCount books w = 0) ∧
    ∀ k c, (k, c) ∈ zipfTable u books →
      1 ≤ c ∧ k ≠ [] ∧ ∀ ch ∈ k, isLowerOrApostrophe ch = true := by
  have hl := lookup_zipfTable u books w hsize
  refine ⟨hl, ?_, ?_, ?_⟩
  · rw [Table.index, hl]
    split
    · rename_i h0
      simp [h0]
    · rfl
  · rw [hl]
    split <;> simp_all
  · intro k c hkc
    have hk := (mem_iff_lookup _ (zipfTable_nodup_keys u books) k c).mp hkc
    have hl' := lookup_zipfTable u books k hsize
    rw [hk] at hl'
    by_cases h0 : runCount books k = 0
    · rw [if_pos h0] at hl'
      exact absurd hl' (by simp)
    · rw [if_neg h0, Option.some.injEq] at hl'
      have hmem : k ∈ countedWords u books := by
        rw [← count_countedWords u books k] at h0
        exact List.count_pos_iff.mp (Nat.pos_of_ne_zero h0)
      refine ⟨by omega, mem_countedWords_shape u books k hmem⟩

/-- Witness of C1 on the two-file scenario: `cat` is held with count 3. -/
theorem C1_table_counts_maximal_runs_witness :
    inputSize scenarioBooks < 2 ^ 63 ∧
    (zipfTable id scenarioBooks).lookup "cat".toList = some 3 ∧
    runCount scenarioBooks "cat".toList = 3 :=
  ⟨by decide,
   ((C1_table_counts_maximal_runs id scenarioBooks "cat".toList (by decide)).1).trans (by decide),
   by decide⟩

/-- C2 as stated fails: for the single file holding a lone apostrophe, one run
is extracted and the counts of the table sum to 0. -/
theorem C2_sum_counts_counterexample :
    (([apostrophe] : List GoString).flatMap findAllString).length = 1 ∧
    (zipfTable id [apostrophe]).total = 0 := by
  decide

/-- C2, amended: for every sequence of file contents (of total size below
`2^63`), the counts of the table sum to the number of runs extracted across
all files other than the lone apostrophes. -/
theorem C2_sum_counts_amended (u : Char → Char) (books : List GoString)
    (hsize : inputSize books < 2 ^ 63) :
    (zipfTable u books).total =
      (((books.flatMap findAllString).filter fun word => decide (word ≠ apostrophe)).length : Int) := by
  rw [zipfTable_eq_foldl, total_foldl_incr]
  · simp [Table.total, countedWords]
  · intro w
    have hlen := countedWords_length_le u books
    have hcount : (countedWords u books).count w ≤ (countedWords u books).length :=
      List.count_le_length _ _
    simp only [Table.index, Table.lookup, Option.getD_none]
    omega

/-- Witness of C2 amended: in the scenario the counts sum to the 11 runs. -/
theorem C2_sum_counts_amended_witness :
    inputSize scenarioBooks < 2 ^ 63 ∧ (zipfTable id scenarioBooks).total = 11 :=
  ⟨by decide, (C2_sum_counts_amended id scenarioBooks (by decide)).trans (by decide)⟩

/-- C6 as stated fails: `İstanbul`, spelt with the capital dotted I (U+0130),
and its lower-case form `istanbul` differ only in letter case, yet the first
gives the table with the one word `stanbul`, the dotted I being a separator
for the tokenizer, and the second the table with the one word `istanbul`. -/
theorem C6_case_fold_counterexample :
    toLower unicodeLowerDottedI istanbulDotted = istanbulLower ∧
    zipfTable unicodeLowerDottedI [istanbulDotted] = [("stanbul".toList, 1)] ∧
    zipfTable unicodeLowerDottedI [istanbulLower] = [("istanbul".toList, 1)] ∧
    (zipfTable unicodeLowerDottedI [istanbulDotted]).lookup istanbulLower = none ∧
    (zipfTable unicodeLowerDottedI [istanbulLower]).lookup istanbulLower = some 1 := by
  decide

/-- C6, amended: two sequences of file contents that differ only in ASCII
letter case (`A`-`Z` against `a`-`z`), file by file, give the same frequency
table; in particular two single strings `S` and `S'` that differ only in
ASCII letter case do. -/
theorem C6_case_fold_invariant (u : Char → Char) (books books' : List GoString)
    (h : books.map asciiLower = books'.map asciiLower) :
    zipfTable u books = zipfTable u books' := by
  rw [zipfTable_eq_foldl, zipfTable_eq_foldl, countedWords_eq, countedWords_eq, h]

/-- Witness of C6 amended, on two spellings of the same sentence. -/
theorem C6_case_fold_invariant_witness :
    ["The Cat".toList].map asciiLower = ["tHE cAT".toList].map asciiLower ∧
    zipfTable id ["The Cat".toList] = zipfTable id ["tHE cAT".toList] :=
  ⟨by decide, C6_case_fold_invariant id _ _ (by decide)⟩

/-- C7: whatever the files, the table never has the lone apostrophe as a key,
while an apostrophe inside a run is kept: the single input `don't` gives
exactly the table with the one entry `don't` of count 1. -/
theorem C7_apostrophe_only_rejected (u : Char → Char) (books : List GoString) :
    (zipfTable u books).lookup apostrophe = none ∧
    apostrophe ∉ (zipfTable u books).keys ∧
    zipfTable u [dont] = [(dont, 1)] := by
  have h1 : (zipfTable u books).lookup apostrophe = none := by
    rw [zipfTable_eq_foldl, lookup_foldl_incr_none, countedWords_eq]
    refine ⟨rfl, ?_⟩
    intro hmem
    have := (List.mem_filter.mp hmem).2
    simp at this
  refine ⟨h1, (lookup_eq_none_iff _ _).mp h1, ?_⟩
  rw [zipfTable_unicode_irrelevant u id]
  decide

/-- C8 as stated fails: the files `ab` and `cd` give a table holding `ab`
once, the concatenated text `abcd` a table without `ab`. -/
theorem C8_concatenation_counterexample :
    (zipfTable id ["ab".toList, "cd".toList]).lookup "ab".toList = some 1 ∧
    (zipfTable id [List.flatten ["ab".toList, "cd".toList]]).lookup "ab".toList = none := by
  decide

/-- C8, amended: for every sequence of file contents, the table built file by
file is the table of the single text made of the files joined in order with a
separator outside `[A-Za-z']` between consecutive files. -/
theorem C8_joined_with_separator (u : Char → Char) (books : List GoString) (sep : Char)
    (hsep : isWordChar sep = false) :
    zipfTable u books = zipfTable u [List.intercalate [sep] books] := by
  have hsep' : ¬ isWordChar sep = true := by simp [hsep]
  unfold zipfTable
  rw [foldl_countBook, foldl_countBook, List.flatMap_cons, List.flatMap_nil, List.append_nil,
    findAllString_intercalate sep hsep']

/-- Witness of C8 amended: the scenario files joined by a line feed. -/
theorem C8_joined_with_separator_witness :
    isWordChar (Char.ofNat 10) = false ∧
    zipfTable id scenarioBooks = zipfTable id [List.intercalate [Char.ofNat 10] scenarioBooks] :=
  ⟨by decide, C8_joined_with_separator id scenarioBooks (Char.ofNat 10) (by decide)⟩

/-! ### `sort.Slice` -/

theorem siftLeft_perm {α : Type} (lt : α → α → Bool) (x : α) (ys : List α) :
    (siftLeft lt x ys).Perm (x :: ys) := by
  induction ys with
  | nil => exact List.Perm.refl _
  | cons y ys ih =>
    unfold siftLeft
    split
    · exact ((List.Perm.cons y ih).trans (List.Perm.swap x y ys))
    · exact List.Perm.refl _

theorem siftLeft_pairwise {α : Type} (lt : α → α → Bool)
    (hasymm : ∀ a b, lt a b = true → lt b a = false)
    (hneg : ∀ a b c, lt a b = false → lt b c = false → lt a c = false)
    (x : α) (ys : List α) (h : ys.Pairwise fun p q => lt p q = false) :
    (siftLeft lt x ys).Pairwise fun p q => lt p q = false := by
  induction ys with
  | nil => simp [siftLeft]
  | cons y ys ih =>
    rw [List.pairwise_cons] at h
    unfold siftLeft
    split
    · rename_i hxy
      rw [List.pairwise_cons]
      refine ⟨?_, ih h.2⟩
      intro z hz
      rcases List.mem_cons.mp ((siftLeft_perm lt x ys).mem_iff.mp hz) with hzx | hzy
      · rw [hzx]
        exact hasymm x y hxy
      · exact h.1 z hzy
    · rename_i hxy
      have hxy' : lt x y = false := by simpa using hxy
      rw [List.pairwise_cons]
      refine ⟨?_, List.pairwise_cons.mpr h⟩
      intro z hz
      rcases List.mem_cons.mp hz with hzy | hzy
      · rw [hzy]
        exact hxy'
      · exact hneg x y z hxy' (h.1 z hzy)

theorem foldl_siftLeft {α : Type} (lt : α → α → Bool)
    (hasymm : ∀ a b, lt a b = true → lt b a = false)
    (hneg : ∀ a b c, lt a b = false → lt b c = false → lt a c = false)
    (data pre : List α) (h : pre.Pairwise fun p q => lt p q = false) :
    ((data.foldl (fun sorted x => siftLeft lt x sorted) pre).Pairwise
        fun p q => lt p q = false) ∧
      (data.foldl (fun sorted x => siftLeft lt x sorted) pre).Perm
        (data.reverse ++ pre) := by
  induction data generalizing pre with
  | nil => exact ⟨h, by simp⟩
  | cons x xs ih =>
    obtain ⟨h1, h2⟩ := ih (siftLeft lt x pre) (siftLeft_pairwise lt hasymm hneg x pre h)
    refine ⟨h1, h2.trans ?_⟩
    rw [List.reverse_cons, List.append_assoc]
    exact List.Perm.append_left _ (siftLeft_perm lt x pre)

/-- The insertion sort meets the contract of `sort.Slice` for every `less`
that is asymmetric and negatively transitive. -/
theorem sortSlice_isSortSliceResult {α : Type} (lt : α → α → Bool)
    (hasymm : ∀ a b, lt a b = true → lt b a = false)
    (hneg : ∀ a b c, lt a b = false → lt b c = false → lt a c = false)
    (data : List α) : IsSortSliceResult lt data (sortSlice lt data) := by
  obtain ⟨h1, h2⟩ := foldl_siftLeft lt hasymm hneg data [] List.Pairwise.nil
  constructor
  · unfold sortSlice
    refine (List.reverse_perm _).trans (h2.trans ?_)
    rw [List.append_nil]
    exact List.reverse_perm _
  · unfold sortSlice
    rw [List.pairwise_reverse]
    exact h1

theorem foldl_siftLeft_of_pairwise {α : Type} (lt : α → α → Bool) (data pre : List α)
    (h : (pre.reverse ++ data).Pairwise fun a b => lt b a = false) :
    data.foldl (fun sorted x => siftLeft lt x sorted) pre = data.reverse ++ pre := by
  induction data generalizing pre with
  | nil => rfl
  | cons x xs ih =>
    have hstep : siftLeft lt x pre = x :: pre := by
      cases pre with
      | nil => rfl
      | cons y ys =>
        have hxy : lt x y = false := by
          rw [List.pairwise_append] at h
          exact h.2.2 y (by simp) x (by simp)
        simp [siftLeft, hxy]
    rw [List.foldl_cons, hstep, ih (x :: pre) (by simpa using h)]
    simp

/-- A list already in `less` order is left as it is: every list that meets
the contract of `sort.Slice` is an output of the insertion sort. -/
theorem sortSlice_of_pairwise {α : Type} (lt : α → α → Bool) (data : List α)
    (h : data.Pairwise fun a b => lt b a = false) : sortSlice lt data = data := by
  unfold sortSlice
  rw [foldl_siftLeft_of_pairwise lt data [] (by simpa using h)]
  simp

theorem less_asymm (a b : wordOccurance) (h : less a b = true) : less b a = false := by
  simp only [less, decide_eq_true_eq, decide_eq_false_iff_not] at h ⊢
  omega

theorem less_negtrans (a b c : wordOccurance) (h1 : less a b = false) (h2 : less b c = false) :
    less a c = false := by
  simp only [less, decide_eq_false_iff_not] at h1 h2 ⊢
  omega

theorem sortableWords_result (order : Table) :
    IsSortSliceResult less (appendEntries order) (sortableWords order) :=
  sortSlice_isSortSliceResult less less_asymm less_negtrans _

theorem pairwise_ge_of_result (data out : List wordOccurance)
    (h : IsSortSliceResult less data out) :
    out.Pairwise fun a b => b.Occurance ≤ a.Occurance := by
  refine h.2.imp ?_
  intro a b hab
  simp only [less, decide_eq_false_iff_not] at hab
  omega

theorem appendEntries_perm (order t : Table) (h : order.Perm t) :
    (appendEntries order).Perm (appendEntries t) :=
  h.map _

theorem mem_appendEntries (t : Table) (w : GoString) (c : Int) :
    ({ Word := w, Occurance := c } : wordOccurance) ∈ appendEntries t ↔ (w, c) ∈ t := by
  unfold appendEntries
  rw [List.mem_map]
  constructor
  · rintro ⟨⟨k, v⟩, hmem, heq⟩
    simp only [wordOccurance.mk.injEq] at heq
    obtain ⟨rfl, rfl⟩ := heq
    exact hmem
  · intro h
    exact ⟨(w, c), h, rfl⟩

theorem map_Word_appendEntries (t : Table) : (appendEntries t).map (·.Word) = t.keys := by
  simp [appendEntries, Table.keys]

/-! ## Claims about ranking -/

/-- C3: for every frequency table and every iteration order of its entries,
the list `sortableWords` left by `sort.Slice` is sorted by count descending:
whenever positions `i` and `i + 1` hold `a` and `b`, the count of `a` is at
least the count of `b`. -/
theorem C3_ranked_descending (t order : Table) (_horder : order.Perm t) (i : Nat)
    (a b : wordOccurance) (ha : (sortableWords order)[i]? = some a)
    (hb : (sortableWords order)[i + 1]? = some b) :
    b.Occurance ≤ a.Occurance := by
  have hp := pairwise_ge_of_result _ _ (sortableWords_result order)
  rw [List.pairwise_iff_getElem] at hp
  obtain ⟨hi, rfl⟩ := List.getElem?_eq_some_iff.mp ha
  obtain ⟨hj, rfl⟩ := List.getElem?_eq_some_iff.mp hb
  exact hp i (i + 1) hi hj (by omega)

/-- Witness of C3 on the scenario table in its insertion order: the first two
ranked entries are `cat` (3) and `the` (2). -/
theorem C3_ranked_descending_witness :
    (zipfTable id scenarioBooks).Perm (zipfTable id scenarioBooks) ∧
    (sortableWords (zipfTable id scenarioBooks))[0]? =
      some { Word := "cat".toList, Occurance := 3 } ∧
    (sortableWords (zipfTable id scenarioBooks))[0 + 1]? =
      some { Word := "the".toList, Occurance := 2 } ∧
    (2 : Int) ≤ 3 :=
  ⟨List.Perm.refl _, by decide, by decide,
   C3_ranked_descending (zipfTable id scenarioBooks) (zipfTable id scenarioBooks)
     (List.Perm.refl _) 0 { Word := "cat".toList, Occurance := 3 }
     { Word := "the".toList, Occurance := 2 } (by decide) (by decide)⟩

/-- C4: for every frequency table (a map: no key twice) and every iteration
order of its entries, `sortableWords` is a permutation of the entries of the
table: it holds the pair `(w, c)` exactly when the table maps `w` to `c`, no
word twice, and its length is the number of keys of the table. -/
theorem C4_ranked_is_permutation (t order : Table) (hkeys : t.keys.Nodup)
    (horder : order.Perm t) :
    (sortableWords order).Perm (appendEntries t) ∧
    (∀ w c, ({ Word := w, Occurance := c } : wordOccurance) ∈ sortableWords order ↔
      t.lookup w = some c) ∧
    ((sortableWords order).map (·.Word)).Nodup ∧
    (sortableWords order).length = t.keys.length := by
  have hp : (sortableWords order).Perm (appendEntries t) :=
    (sortableWords_result order).1.trans (appendEntries_perm order t horder)
  refine ⟨hp, ?_, ?_, ?_⟩
  · intro w c
    rw [hp.mem_iff, mem_appendEntries, mem_iff_lookup t hkeys]
  · rw [(hp.map (·.Word)).nodup_iff, map_Word_appendEntries]
    exact hkeys
  · rw [hp.length_eq]
    simp [appendEntries, Table.keys]

/-- Witness of C4 on the scenario table: seven ranked entries. -/
theorem C4_ranked_is_permutation_witness :
    (zipfTable id scenarioBooks).keys.Nodup ∧
    (zipfTable id scenarioBooks).Perm (zipfTable id scenarioBooks) ∧
    (sortableWords (zipfTable id scenarioBooks)).length = 7 :=
  ⟨by decide, List.Perm.refl _,
   (C4_ranked_is_permutation (zipfTable id scenarioBooks) (zipfTable id scenarioBooks)
     (by decide) (List.Perm.refl _)).2.2.2.trans (by decide)⟩

/-! ### Selection, chart and console loop -/

theorem sliceTo_of_le {α : Type} (xs : List α) (cap : Nat) (N : Int)
    (hcap : xs.length ≤ cap) (h0 : 0 ≤ N) (hN : N ≤ xs.length) :
    sliceTo xs cap N = .ok ((xs.take N.toNat).map some) := by
  unfold sliceTo
  have hn : N.toNat ≤ xs.length := by omega
  rw [if_neg (by omega)]
  congr 1
  rw [List.take_append_of_le_length (by simpa using hn), List.map_take]

theorem fillBars_some (ws : List wordOccurance) (done todo : List ChartValue)
    (h : ws.length ≤ todo.length) :
    fillBars (ws.map some) done.length (done ++ todo) =
      .ok (done ++ ws.map (fun w => { Label := w.Word, Value := float64OfInt64 w.Occurance }) ++
        todo.drop ws.length) := by
  induction ws generalizing done todo with
  | nil => simp [fillBars]
  | cons w rest ih =>
    cases todo with
    | nil => simp at h
    | cons z todo =>
      simp only [List.length_cons, Nat.add_le_add_iff_right] at h
      have hlt : done.length < (done ++ z :: todo).length := by simp
      have hset : (done ++ z :: todo).set done.length
          { Label := w.Word, Value := float64OfInt64 w.Occurance } =
          (done ++ [{ Label := w.Word, Value := float64OfInt64 w.Occurance }]) ++ todo := by
        simp
      have hlen : done.length + 1 =
          (done ++ [({ Label := w.Word, Value := float64OfInt64 w.Occurance } : ChartValue)]).length := by
        simp
      rw [List.map_cons, fillBars, if_pos hlt, hset, hlen, ih _ _ h]
      simp

theorem printLines_range' (sw : List wordOccurance) (k n : Nat) (h : k + n ≤ sw.length) :
    printLines sw (List.range' k n) =
      .ok (((sw.drop k).take n).map fun w => (w.Word, w.Occurance)) := by
  induction n generalizing k with
  | zero => simp [printLines]
  | succ n ih =>
    have hk : k < sw.length := by omega
    rw [List.range'_succ, printLines, List.getElem?_eq_getElem hk, ih (k + 1) (by omega)]
    simp only
    rw [List.drop_eq_getElem_cons hk, List.take_succ_cons, List.map_cons]

theorem consoleLoop_of_le (sw : List wordOccurance) (N : Int) (hN : N ≤ sw.length) :
    consoleLoop N sw = .ok ((sw.take N.toNat).map fun w => (w.Word, w.Occurance)) := by
  unfold consoleLoop
  rw [List.range_eq_range', printLines_range' sw 0 N.toNat (by omega), List.drop_zero]

theorem float64OfInt64_exact (n : Int) (h : n.natAbs < 2 ^ 53) : float64OfInt64 n = n := by
  unfold float64OfInt64
  simp only
  rw [if_pos h]

theorem isLargestCount_head (t order : Table) (horder : order.Perm t) (first : wordOccurance)
    (rest : List wordOccurance) (hsw : sortableWords order = first :: rest) :
    IsLargestCount t first.Occurance := by
  have hres := sortableWords_result order
  have hp : (sortableWords order).Perm (appendEntries t) :=
    hres.1.trans (appendEntries_perm order t horder)
  have hsorted := pairwise_ge_of_result _ _ hres
  rw [hsw] at hp hsorted
  constructor
  · have hmem : first ∈ appendEntries t := hp.mem_iff.mp (List.mem_cons_self _ _)
    obtain ⟨e, he, rfl⟩ := List.mem_map.mp hmem
    exact ⟨e, he, rfl⟩
  · intro e he
    have hmem : ({ Word := e.1, Occurance := e.2 } : wordOccurance) ∈ first :: rest :=
      hp.mem_iff.mpr (List.mem_map_of_mem _ he)
    rcases List.mem_cons.mp hmem with h | h
    · rw [← h]
    · exact (List.pairwise_cons.mp hsorted).1 _ h

/-! ## Claims about the selection and the rendering stage -/

/-- C5 as stated fails: with the one file `a` (one distinct word) and the
default top-count 20, the slice expression panics on the one-element slice,
and for no capacity is a selection of length `min 20 1` produced. -/
theorem C5_selection_counterexample :
    sliceTo (sortableWords (zipfTable id ["a".toList])) 1 20 =
      .error .sliceBoundsOutOfRange ∧
    ¬ ∃ (cap : Nat) (sel : List (Option wordOccurance)),
      sliceTo (sortableWords (zipfTable id ["a".toList])) cap 20 = .ok sel ∧
      sel.length = min 20 (sortableWords (zipfTable id ["a".toList])).length := by
  refine ⟨by decide, ?_⟩
  rintro ⟨cap, sel, hsel, hlen⟩
  have hsw : sortableWords (zipfTable id ["a".toList]) =
      [{ Word := "a".toList, Occurance := 1 }] := by decide
  rw [hsw] at hsel hlen
  unfold sliceTo at hsel
  split at hsel
  · exact absurd hsel (by simp)
  · rename_i hcap
    simp only [Except.ok.injEq] at hsel
    rw [← hsel] at hlen
    simp only [List.length_take, List.length_append, List.length_map, List.length_singleton,
      List.length_replicate] at hlen
    omega

/-- C5, amended: for every ranked list, of `D` entries, and every top-count
`N` with `0 ≤ N ≤ D`, the selection `sortableWords[0:N]` is produced without
failure, holds the first `N` ranked entries and has length `N = min(N, D)`. -/
theorem C5_selection_within_bounds (t order : Table) (horder : order.Perm t) (cap : Nat)
    (N : Int) (hcap : (sortableWords order).length ≤ cap) (h0 : 0 ≤ N)
    (hN : N ≤ t.keys.length) :
    ∃ sel, sliceTo (sortableWords order) cap N = .ok sel ∧
      sel = ((sortableWords order).take N.toNat).map some ∧
      (sel.length : Int) = min N (t.keys.length : Int) := by
  have hlen : (sortableWords order).length = t.keys.length := by
    rw [((sortableWords_result order).1.trans (appendEntries_perm order t horder)).length_eq]
    simp [appendEntries, Table.keys]
  refine ⟨_, sliceTo_of_le _ cap N hcap h0 (by omega), rfl, ?_⟩
  rw [List.length_map, List.length_take, hlen]
  omega

/-- Witness of C5 amended: the top 3 of the seven scenario words. -/
theorem C5_selection_within_bounds_witness :
    (zipfTable id scenarioBooks).Perm (zipfTable id scenarioBooks) ∧
    (sortableWords (zipfTable id scenarioBooks)).length ≤ 8 ∧
    (0 : Int) ≤ 3 ∧ (3 : Int) ≤ ((zipfTable id scenarioBooks).keys.length : Int) ∧
    ∃ sel, sliceTo (sortableWords (zipfTable id scenarioBooks)) 8 3 = .ok sel ∧
      sel = ((sortableWords (zipfTable id scenarioBooks)).take (3 : Int).toNat).map some ∧
      (sel.length : Int) = min 3 ((zipfTable id scenarioBooks).keys.length : Int) :=
  ⟨List.Perm.refl _, by decide, by decide, by decide,
   C5_selection_within_bounds (zipfTable id scenarioBooks) (zipfTable id scenarioBooks)
     (List.Perm.refl _) 8 3 (by decide) (by decide) (by decide)⟩

/-- C10: for every frequency table with `D` distinct words, whose counts are
below `2^53` (where `float64` is exact), and every top-count `N` with
`1 ≤ N ≤ D`, nothing in the rendering stage panics: the slice
`sortableWords[0:N]` is valid and holds the first `N` entries, none nil;
`drawGraph` fills the `N` allocated bars and reads `chartValues[0]`; the
console loop reads `sortableWords[i]` for every `i < N`; and the value-axis
maximum is the largest count of the whole table. -/
theorem C10_render_in_bounds (t order : Table) (horder : order.Perm t) (cap : Nat) (N : Int)
    (cliOut : Bool) (hcap : (sortableWords order).length ≤ cap) (h1 : 1 ≤ N)
    (hN : N ≤ t.keys.length) (hexact : ∀ e ∈ t, e.2.natAbs < 2 ^ 53) :
    ∃ chart lines,
      sliceTo (sortableWords order) cap N =
        .ok (((sortableWords order).take N.toNat).map some) ∧
      drawGraph N (((sortableWords order).take N.toNat).map some) = .ok chart ∧
      chart.Bars = ((sortableWords order).take N.toNat).map
        (fun w => { Label := w.Word, Value := w.Occurance }) ∧
      (chart.Bars.length : Int) = N ∧
      IsLargestCount t chart.Max ∧
      consoleLoop N (sortableWords order) = .ok lines ∧
      lines = ((sortableWords order).take N.toNat).map (fun w => (w.Word, w.Occurance)) ∧
      renderStage N cliOut (sortableWords order) cap =
        .ok (chart, if cliOut then lines else []) := by
  have hp : (sortableWords order).Perm (appendEntries t) :=
    (sortableWords_result order).1.trans (appendEntries_perm order t horder)
  have hlen : (sortableWords order).length = t.keys.length := by
    rw [hp.length_eq]
    simp [appendEntries, Table.keys]
  have hslice := sliceTo_of_le (sortableWords order) cap N hcap (by omega) (by omega)
  have hconsole := consoleLoop_of_le (sortableWords order) N (by omega)
  have hex : ∀ w ∈ sortableWords order, float64OfInt64 w.Occurance = w.Occurance := by
    intro w hw
    obtain ⟨e, he, rfl⟩ := List.mem_map.mp (hp.mem_iff.mp hw)
    exact float64OfInt64_exact _ (hexact e he)
  have htake : ((sortableWords order).take N.toNat).length = N.toNat := by
    rw [List.length_take]
    omega
  have hfill := fillBars_some ((sortableWords order).take N.toNat) []
    (List.replicate N.toNat { Label := [], Value := 0 }) (by simp [htake])
  have hvals : ((sortableWords order).take N.toNat).map
      (fun w => ({ Label := w.Word, Value := float64OfInt64 w.Occurance } : ChartValue)) =
      ((sortableWords order).take N.toNat).map
        (fun w => { Label := w.Word, Value := w.Occurance }) :=
    List.map_congr_left fun w hw => by rw [hex w (List.mem_of_mem_take hw)]
  rw [htake, List.drop_replicate, Nat.sub_self, List.replicate_zero, List.append_nil,
    List.nil_append, List.length_nil, List.nil_append, hvals] at hfill
  obtain ⟨first, rest, hsw⟩ : ∃ first rest, sortableWords order = first :: rest := by
    cases hs : sortableWords order with
    | nil =>
      rw [hs] at hlen
      simp only [List.length_nil] at hlen
      omega
    | cons first rest => exact ⟨first, rest, rfl⟩
  obtain ⟨n, hn⟩ : ∃ n, N.toNat = n + 1 := ⟨N.toNat - 1, by omega⟩
  have hdraw : drawGraph N (((sortableWords order).take N.toNat).map some) =
      .ok { Max := first.Occurance,
            Bars := ((sortableWords order).take N.toNat).map
              (fun w => { Label := w.Word, Value := w.Occurance }) } := by
    unfold drawGraph
    rw [if_neg (by omega), hfill]
    rw [hsw, hn, List.take_succ_cons, List.map_cons]
  refine ⟨_, _, hslice, hdraw, rfl, ?_, isLargestCount_head t order horder first rest hsw,
    hconsole, rfl, ?_⟩
  · simp only [List.length_map, htake]
    omega
  · unfold renderStage
    rw [hslice]
    simp only
    rw [hdraw]
    simp only
    rw [hconsole]
    cases cliOut <;> rfl

/-- Witness of C10: the scenario with top-count 3 and console output; the
value-axis maximum is 3, the count of `cat`. -/
theorem C10_render_in_bounds_witness :
    (zipfTable id scenarioBooks).Perm (zipfTable id scenarioBooks) ∧
    (sortableWords (zipfTable id scenarioBooks)).length ≤ 8 ∧
    (1 : Int) ≤ 3 ∧ (3 : Int) ≤ ((zipfTable id scenarioBooks).keys.length : Int) ∧
    (∀ e ∈ zipfTable id scenarioBooks, e.2.natAbs < 2 ^ 53) ∧
    ∃ chart lines,
      sliceTo (sortableWords (zipfTable id scenarioBooks)) 8 3 =
        .ok (((sortableWords (zipfTable id scenarioBooks)).take (3 : Int).toNat).map some) ∧
      drawGraph 3 (((sortableWords (zipfTable id scenarioBooks)).take (3 : Int).toNat).map some) =
        .ok chart ∧
      chart.Bars = ((sortableWords (zipfTable id scenarioBooks)).take (3 : Int).toNat).map
        (fun w => { Label := w.Word, Value := w.Occurance }) ∧
      (chart.Bars.length : Int) = 3 ∧
      IsLargestCount (zipfTable id scenarioBooks) chart.Max ∧
      consoleLoop 3 (sortableWords (zipfTable id scenarioBooks)) = .ok lines ∧
      lines = ((sortableWords (zipfTable id scenarioBooks)).take (3 : Int).toNat).map
        (fun w => (w.Word, w.Occurance)) ∧
      renderStage 3 true (sortableWords (zipfTable id scenarioBooks)) 8 =
        .ok (chart, if true then lines else []) :=
  ⟨List.Perm.refl _, by decide, by decide, by decide, by decide,
   C10_render_in_bounds (zipfTable id scenarioBooks) (zipfTable id scenarioBooks)
     (List.Perm.refl _) 8 3 true (by decide) (by decide) (by decide) (by decide)⟩

/-! ## The end-to-end scenario -/

theorem appendEntries_scenarioBooks (u : Char → Char) :
    appendEntries (zipfTable u scenarioBooks) = scenarioEntries := by
  rw [zipfTable_unicode_irrelevant u id]
  decide

theorem scenarioEntries_three (e : wordOccurance) (he : e ∈ scenarioEntries)
    (h : e.Occurance = 3) : e = catEntry := by
  simp only [scenarioEntries, List.mem_cons, List.mem_singleton, List.not_mem_nil, or_false] at he
  rcases he with rfl | rfl | rfl | rfl | rfl | rfl | rfl
  all_goals first | rfl | (exact absurd h (by decide))

theorem scenarioEntries_two (e : wordOccurance) (he : e ∈ scenarioEntries)
    (h : e.Occurance = 2) : e = theEntry ∨ e = aEntry := by
  simp only [scenarioEntries, List.mem_cons, List.mem_singleton, List.not_mem_nil, or_false] at he
  rcases he with rfl | rfl | rfl | rfl | rfl | rfl | rfl
  all_goals first | exact Or.inl rfl | exact Or.inr rfl | (exact absurd h (by decide))

theorem scenario_counts (ranked : List wordOccurance)
    (hperm : ranked.Perm scenarioEntries)
    (hsorted : ranked.Pairwise fun a b => b.Occurance ≤ a.Occurance) :
    ranked.map (·.Occurance) = [3, 2, 2, 1, 1, 1, 1] := by
  have h1 : (ranked.map (·.Occurance)).Perm [3, 2, 2, 1, 1, 1, 1] :=
    (hperm.map _).trans (by decide)
  have h2 : (ranked.map (·.Occurance)).Sorted (· ≥ ·) := by
    rw [List.Sorted, List.pairwise_map]
    exact hsorted
  exact List.eq_of_perm_of_sorted h1 h2 (by decide)

/-- C9: for the two files of the scenario and top-count 3, whatever the
iteration order of the map and whatever rearrangement `sort.Slice` leaves
among equal counts, the selection has `cat: 3` first and the entries
`the: 2` and `a: 2` in positions two and three, in one order or the other. -/
theorem C9_scenario_top3 (u : Char → Char) (order : Table) (ranked : List wordOccurance)
    (cap : Nat) (horder : order.Perm (zipfTable u scenarioBooks))
    (hsort : IsSortSliceResult less (appendEntries order) ranked)
    (hcap : ranked.length ≤ cap) :
    sliceTo ranked cap 3 = .ok [some catEntry, some theEntry, some aEntry] ∨
    sliceTo ranked cap 3 = .ok [some catEntry, some aEntry, some theEntry] := by
  have hperm : ranked.Perm scenarioEntries := by
    rw [← appendEntries_scenarioBooks u]
    exact hsort.1.trans (appendEntries_perm order _ horder)
  have hsorted := pairwise_ge_of_result _ _ hsort
  have hcounts := scenario_counts ranked hperm hsorted
  have hnodup : ranked.Nodup := hperm.nodup_iff.mpr (by decide)
  obtain ⟨e1, r1, rfl, h1, hr1⟩ := List.map_eq_cons_iff.mp hcounts
  obtain ⟨e2, r2, rfl, h2, hr2⟩ := List.map_eq_cons_iff.mp hr1
  obtain ⟨e3, r3, rfl, h3, hr3⟩ := List.map_eq_cons_iff.mp hr2
  have m1 : e1 ∈ scenarioEntries := hperm.mem_iff.mp (by simp)
  have m2 : e2 ∈ scenarioEntries := hperm.mem_iff.mp (by simp)
  have m3 : e3 ∈ scenarioEntries := hperm.mem_iff.mp (by simp)
  have q1 := scenarioEntries_three e1 m1 h1
  have q2 := scenarioEntries_two e2 m2 h2
  have q3 := scenarioEntries_two e3 m3 h3
  have hne : e2 ≠ e3 := by
    intro h
    simp [h] at hnodup
  have hcap3 : ¬ ((3 : Int) < 0 ∨ (cap : Int) < 3) := by
    simp only [List.length_cons] at hcap
    omega
  have hsel : sliceTo (e1 :: e2 :: e3 :: r3) cap 3 = .ok [some e1, some e2, some e3] := by
    unfold sliceTo
    rw [if_neg hcap3]
    rfl
  rw [hsel, q1]
  rcases q2 with q2 | q2 <;> rcases q3 with q3 | q3
  · exact absurd (q2.trans q3.symm) hne
  · exact Or.inl (by rw [q2, q3])
  · exact Or.inr (by rw [q2, q3])
  · exact absurd (q2.trans q3.symm) hne

/-- Witness of C9: the map iterated in insertion order and sorted by the
insertion sort, with capacity 8. -/
theorem C9_scenario_top3_witness :
    (zipfTable id scenarioBooks).Perm (zipfTable id scenarioBooks) ∧
    IsSortSliceResult less (appendEntries (zipfTable id scenarioBooks))
      (sortableWords (zipfTable id scenarioBooks)) ∧
    (sortableWords (zipfTable id scenarioBooks)).length ≤ 8 ∧
    (sliceTo (sortableWords (zipfTable id scenarioBooks)) 8 3 =
        .ok [some catEntry, some theEntry, some aEntry] ∨
      sliceTo (sortableWords (zipfTable id scenarioBooks)) 8 3 =
        .ok [some catEntry, some aEntry, some theEntry]) :=
  ⟨List.Perm.refl _, sortableWords_result _, by decide,
   C9_scenario_top3 id (zipfTable id scenarioBooks) (sortableWords (zipfTable id scenarioBooks)) 8
     (List.Perm.refl _) (sortableWords_result _) (by decide)⟩

end Zipf
